import Mathlib

/-!
Verification of the XCVM runtime kernels (`src/runtime/xcvm_ops.cc`) of the
chainer-compiler repository.  Arrays are modelled as a flat row-major buffer of
integer entries together with a shape; numeric data is carried by `Int` as an
idealized totally ordered carrier for the dtypes the kernels operate on.
Kernels that can hit a `CHECK` macro (a fatal error aborting the run) are
modelled in `Except Err`.
-/

namespace XCVM

/-- A fatal error: a failed `CHECK` macro or an array-engine exception.  Both
abort the whole run, so a single error value suffices. -/
inductive Err where
  | fatal
deriving DecidableEq, Repr

deriving instance DecidableEq for Except

/-- Total element count of a shape: the product of its dimensions
(`chainerx::Shape::GetTotalSize` for non-negative dimensions). -/
def prodNat (s : List Nat) : Nat := s.foldr (· * ·) 1

/-- Row-major flat index of a multi-index `ix` into an array of shape `s`. -/
def flatIndex : List Nat → List Nat → Nat
  | _ :: s, i :: ix => i * prodNat s + flatIndex s ix
  | _, _ => 0

/-- Row-major multi-index of flat position `n` in shape `s`. -/
def unflatten : List Nat → Nat → List Nat
  | [], _ => []
  | _ :: s, n => (n / prodNat s) :: unflatten s (n % prodNat s)

/-- The multi-index `ix` addresses a valid element of shape `s`. -/
def InBounds : List Nat → List Nat → Prop
  | [], [] => True
  | d :: s, i :: ix => i < d ∧ InBounds s ix
  | _, _ => False

instance : ∀ (s ix : List Nat), Decidable (InBounds s ix)
  | [], [] => .isTrue trivial
  | [], _ :: _ => .isFalse id
  | _ :: _, [] => .isFalse id
  | _ :: s, _ :: ix =>
    have : Decidable (InBounds s ix) := instDecidableInBounds s ix
    instDecidableAnd

/-- A runtime tensor (`chainerx::Array`): a shape and a row-major data buffer.
The dtype is abstracted away; entries are integers. -/
structure Arr where
  shape : List Nat
  data : List Int
deriving DecidableEq, Repr

/-- Total element count (`chainerx::Array::GetTotalSize`). -/
def Arr.size (a : Arr) : Nat := prodNat a.shape

/-- Well-formedness: the buffer holds exactly one entry per element. -/
def Arr.wf (a : Arr) : Prop := a.data.length = prodNat a.shape

/-- Element at multi-index `ix` (junk `0` out of bounds). -/
def Arr.el (a : Arr) (ix : List Nat) : Int := a.data.getD (flatIndex a.shape ix) 0

/-- Scalar value of a one-element array (`chainerx::AsScalar`). -/
def Arr.scalar (a : Arr) : Int := a.data.getD 0 0

/-! ### The array engine's Reshape

`chainerx::Reshape(data, s)` is the external array engine.  Its contract:
it succeeds exactly when the product of the requested dimensions (computed
over signed integers — the engine performs no sign check on the dimensions)
equals the array's total element count, and then returns the same buffer
under the new shape; otherwise it throws, which aborts the run.  A requested
shape that still contains negative entries but passes the size check yields
an ill-formed array; the model clamps such entries to `0` in the recorded
shape, keeping only the absence of an error observable. -/

/-- Signed product of an engine-side shape request. -/
def prodInt (s : List Int) : Int := s.foldr (· * ·) 1

/-- The array engine's reshape; see the section comment for the contract. -/
def chxReshape (data : Arr) (s : List Int) : Except Err Arr :=
  if prodInt s = (prodNat data.shape : Int) then
    .ok ⟨s.map Int.toNat, data.data⟩
  else .error .fatal

/-! ### ReshapeOp (`ReshapeOp::RunImpl`, xcvm_ops.cc:277-298)

The kernel receives the requested shape as a 1-D int64 array; `ArrayToShape`
(a runtime helper) reads its entries, so the model takes the entries directly
as a `List Int`.  The kernel scans the requested dimensions, rejecting `0`,
multiplying the non-negative ones into `to_total_size` and remembering the
index of the last negative one; if the products differ it requires
`from > to`, `to ∣ from` and a recorded negative index, and overwrites that
entry with `from / to`; finally it calls the engine's reshape. -/

/-- The scan loop of `ReshapeOp::RunImpl`: returns the product of the
non-negative dimensions and the index of the last negative dimension, or
`none` if a dimension is `0` (`CHECK_NE(0, d)`). -/
def reshapeScan : List Int → Nat → Nat → Option Nat → Option (Nat × Option Nat)
  | [], _, acc, idx => some (acc, idx)
  | d :: rest, i, acc, idx =>
    if d = 0 then none
    else if d < 0 then reshapeScan rest (i + 1) acc (some i)
    else reshapeScan rest (i + 1) (acc * d.toNat) idx

/-- `ReshapeOp::RunImpl`. -/
def reshapeRun (data : Arr) (s : List Int) : Except Err Arr :=
  match reshapeScan s 0 1 none with
  | none => .error .fatal
  | some (toTotal, minusOneIdx) =>
    let fromTotal := prodNat data.shape
    if fromTotal = toTotal then chxReshape data s
    else
      if toTotal < fromTotal ∧ fromTotal % toTotal = 0 then
        match minusOneIdx with
        | none => .error .fatal
        | some k => chxReshape data (s.set k (fromTotal / toTotal : Nat))
      else .error .fatal

/-! ### UnsqueezeOp (`UnsqueezeOp::RunImpl`, xcvm_ops.cc:316-323)

For each listed position `d` in order: `CHECK_LE(d, shape.size())`, then
`shape.insert(shape.begin() + d, 1)`.  The positions are int64 in the
source; a negative position makes the `insert` write out of range — undefined
behaviour, not a fatal error — so the model restricts positions to `Nat`. -/

/-- The insertion loop of `UnsqueezeOp::RunImpl` on the shape. -/
def unsqueezeShape : List Nat → List Nat → Except Err (List Nat)
  | [], s => .ok s
  | d :: ds, s =>
    if d ≤ s.length then unsqueezeShape ds (s.insertIdx d 1)
    else .error .fatal

/-- `UnsqueezeOp::RunImpl`: compute the extended shape, then reshape. -/
def unsqueezeRun (data : Arr) (axes : List Nat) : Except Err Arr := do
  let s ← unsqueezeShape axes data.shape
  chxReshape data (s.map Int.ofNat)

/-! ### PadOp (`PadOp::RunImpl`, xcvm_ops.cc:399-410)

`CHECK_EQ(data.ndim() * 2, pads.size())`; for each axis `i` the output
dimension is `shape[i] + pads[i] + pads[i + ndim]` and the engine slice for
the copy is `[pads[i], pads[i] + shape[i])` over the original `shape[i]`.
The kernel allocates a buffer filled with `value` (`chainerx::Full`) and
copies `data` into the strided interior view (`Device::Copy`).  The model
builds the resulting buffer pointwise: a position inside the interior block
takes the corresponding data element, every other position takes `value`.
Pads are int64 in the source; a negative pad makes the source and
destination shapes of the engine `Copy` differ, a fatal error under the
engine contract, so the model rejects negative pads with an error. -/

/-- The multi-index `jx` lies in the interior block: on every axis `i`,
`before[i] ≤ jx[i] < before[i] + shape[i]`. -/
def insideBlock : List Nat → List Nat → List Nat → Bool
  | [], [], [] => true
  | b :: bs, d :: ss, j :: js => b ≤ j && j < b + d && insideBlock bs ss js
  | _, _, _ => false

/-- The per-axis "before" pad amounts: the first `ndim` entries of `pads`. -/
def padBefore (pads : List Int) (n : Nat) : List Nat := (pads.take n).map Int.toNat

/-- The per-axis "after" pad amounts: the last `ndim` entries of `pads`. -/
def padAfter (pads : List Int) (n : Nat) : List Nat := (pads.drop n).map Int.toNat

/-- `PadOp::RunImpl`. -/
def padRun (data : Arr) (pads : List Int) (v : Int) : Except Err Arr :=
  let n := data.shape.length
  if pads.length = 2 * n ∧ ∀ p ∈ pads, 0 ≤ p then
    let bef := padBefore pads n
    let aft := padAfter pads n
    let outShape := (data.shape.zipWith (· + ·) bef).zipWith (· + ·) aft
    .ok ⟨outShape, (List.range (prodNat outShape)).map fun m =>
      let jx := unflatten outShape m
      if insideBlock bef data.shape jx then data.el (jx.zipWith (fun j b => j - b) bef)
      else v⟩
  else .error .fatal

/-! ### ClipOp (`ClipOp::RunImpl`, xcvm_ops.cc:143-145)

`return -chainerx::Maximum(-chainerx::Maximum(x, min), -max);` where the
`min`/`max` attributes are scalars broadcast over the array. -/

/-- `ClipOp::RunImpl`. -/
def clipRun (x : Arr) (mn mx : Int) : Arr :=
  ⟨x.shape, x.data.map fun v => -(max (-(max v mn)) (-mx))⟩

/-! ### ElementwiseMax and MaxOp (xcvm_ops.cc:50-75, 157-164)

`ElementwiseMax(a, b)`: if one operand has a single element it is extracted
as a scalar and the engine's broadcasting `Maximum(scalar, array)` is used;
otherwise `CHECK_EQ(an, bn)` aborts on a size mismatch, and the surviving
case runs the slow per-element loop: both operands are flattened, each pair
of elements is maxed into a one-element array, the pieces are concatenated
and the result is reshaped to `a.shape()` — i.e. an elementwise max over the
flat buffers under `a`'s shape.  `MaxOp::RunImpl` checks `inputs` is
non-empty and folds `ElementwiseMax` left-to-right. -/

/-- Which branch of `ElementwiseMax` runs: the structure of its `if`/`else`
chain, with `mismatch` standing for the failing `CHECK_EQ(an, bn)`. -/
inductive MaxPath where
  | scalarLeft
  | scalarRight
  | slow
  | mismatch
deriving DecidableEq, Repr

/-- The branch of `ElementwiseMax` taken for total sizes `an`, `bn`. -/
def elementwiseMaxPath (a b : Arr) : MaxPath :=
  if a.size = 1 then .scalarLeft
  else if b.size = 1 then .scalarRight
  else if a.size = b.size then .slow
  else .mismatch

/-- `ElementwiseMax`. -/
def elementwiseMax (a b : Arr) : Except Err Arr :=
  if a.size = 1 then .ok ⟨b.shape, b.data.map fun v => max a.scalar v⟩
  else if b.size = 1 then .ok ⟨a.shape, a.data.map fun v => max v b.scalar⟩
  else if a.size = b.size then .ok ⟨a.shape, a.data.zipWith max b.data⟩
  else .error .fatal

/-- `MaxOp::RunImpl`: `CHECK_LT(0, inputs.size())`, then a left fold of
`ElementwiseMax`, aborting at the first fatal step. -/
def maxOpRun : List Arr → Except Err Arr
  | [] => .error .fatal
  | x :: xs => xs.foldlM elementwiseMax x

/-! ### MatMul/Gemm (xcvm_ops.cc:420-455)

`chainerx::Transpose` with no axis list reverses all axes; the element of
the transposed array at multi-index `jx` is the source element at
`jx.reverse`.  `chainerx::Dot` is modelled by its engine contract for the
2-D operands Gemm produces: `(m, k) · (k, n) → (m, n)` matrix product, a
fatal engine error on a contraction mismatch or on operands that are not
2-D (ranks the Gemm kernel never passes after flattening).  The bias path
`r + xc` uses the engine's elementwise add, modelled for operands of equal
shape (the only contract the claims exercise). -/

/-- `chainerx::Transpose` with default axes: full axis reversal. -/
def transposeRev (x : Arr) : Arr :=
  ⟨x.shape.reverse, (List.range (prodNat x.shape)).map fun m =>
    x.el (unflatten x.shape.reverse m).reverse⟩

/-- Engine contract of `chainerx::Dot` on 2-D operands. -/
def dotArr (a b : Arr) : Except Err Arr :=
  match a.shape, b.shape with
  | [m, k], [k', n] =>
    if k = k' then
      .ok ⟨[m, n], (List.range (m * n)).map fun idx =>
        (((List.range k).map fun t => a.el [idx / n, t] * b.el [t, idx % n]).sum)⟩
    else .error .fatal
  | _, _ => .error .fatal

/-- `MatMulOp::RunImpl`: a plain `Dot`. -/
def matMulRun (a b : Arr) : Except Err Arr := dotArr a b

/-- The rank>2 flattening of `GemmOp::RunImpl`: all dimensions after the
first are collapsed into one (an engine reshape of matching total size,
which keeps the row-major buffer). -/
def gemmFlatten (x : Arr) : Arr :=
  if 2 < x.shape.length then ⟨[x.shape.headD 0, prodNat x.shape.tail], x.data⟩
  else x

/-- Multiply every entry by a scalar (`r *= alpha`, `xc * beta`). -/
def scaleArr (c : Int) (x : Arr) : Arr := ⟨x.shape, x.data.map (c * ·)⟩

/-- Engine elementwise add for operands of equal shape (`r + xc`). -/
def addSameShape (a b : Arr) : Except Err Arr :=
  if a.shape = b.shape then .ok ⟨a.shape, a.data.zipWith (· + ·) b.data⟩
  else .error .fatal

/-- `GemmOp::RunImpl`.  The `alpha`/`beta` attributes are floats in the
source; the claims fix them to the exactly representable `1` and `0`, so the
model carries them as integers. -/
def gemmRun (a b c : Arr) (transA transB : Bool) (alpha beta : Int) :
    Except Err Arr := do
  let xa := gemmFlatten (if transA then transposeRev a else a)
  let xb := gemmFlatten (if transB then transposeRev b else b)
  let r ← dotArr xa xb
  let r := if alpha ≠ 1 then scaleArr alpha r else r
  if beta = 0 then return r
  else
    let xc := if beta ≠ 1 then scaleArr beta c else c
    addSameShape r xc

/-! ### Concat/Split (xcvm_ops.cc:380-393)

`ConcatOp::RunImpl` and `SplitOp::RunImpl` call the runtime helpers
`Concat(inputs, axis)` and `Split(input, lens, axis)`, which live outside
the provided sources.  Following the spec — "`Concat` joins along an axis;
`Split` uses explicit per-segment lengths if given, else divides evenly by
output count (fatal if not evenly divisible)" — they are modelled on a
nested representation of tensors, where concatenation or splitting along
axis `0` is plain append or prefix-splitting of the children and a deeper
axis recurses through a transpose of the children lists. -/

/-- A tensor as nested lists of children with integer entries at the leaves:
a rank-`(k+1)` tensor is the list of its rank-`k` slices along axis 0. -/
inductive Tensor where
  | scalar : Int → Tensor
  | node : List Tensor → Tensor

/-- The children of a tensor along axis 0 (empty for a scalar). -/
def Tensor.children : Tensor → List Tensor
  | .scalar _ => []
  | .node cs => cs

/-- `t` is a well-formed tensor of shape `s`. -/
def Tensor.wf : List Nat → Tensor → Prop
  | [], .scalar _ => True
  | [], .node _ => False
  | _ :: _, .scalar _ => False
  | n :: s, .node cs => cs.length = n ∧ ∀ c ∈ cs, Tensor.wf s c

instance Tensor.wfDec : ∀ (s : List Nat) (t : Tensor), Decidable (Tensor.wf s t)
  | [], .scalar _ => .isTrue trivial
  | [], .node _ => .isFalse id
  | _ :: _, .scalar _ => .isFalse id
  | _ :: s, .node cs =>
    have : DecidablePred (Tensor.wf s) := fun c => Tensor.wfDec s c
    have : Decidable (∀ c ∈ cs, Tensor.wf s c) := List.decidableBAll _ cs
    instDecidableAnd

/-- The shape read off a tensor's structure (`Array::shape()`); a dimension
below an empty level is unobservable and reported as rank stop `[0]`. -/
def Tensor.tshape : Tensor → List Nat
  | .scalar _ => []
  | .node [] => [0]
  | .node (c :: cs) => (cs.length + 1) :: c.tshape

/-- Split a list into successive segments of the given lengths. -/
def listSplit : List Nat → List Tensor → List (List Tensor)
  | [], _ => []
  | n :: ns, l => l.take n :: listSplit ns (l.drop n)

/-- Transpose of a table of tensor lists, producing `n` rows: row `j` holds
the `j`-th entry of every input row.  Used to regroup children when a
concat/split axis is not axis 0. -/
def tposeT (n : Nat) (rows : List (List Tensor)) : List (List Tensor) :=
  (List.range n).map fun j => rows.map fun r => r.getD j (.scalar 0)

/-- Modelled from the spec: the runtime helper `Split(input, lens, axis)`
(not under src/) — cut the tensor along `axis` into pieces of the listed
lengths.  Axis 0 splits the children; a deeper axis splits every child and
regroups by piece index. -/
def splitT : Nat → List Nat → Tensor → List Tensor
  | 0, lens, t => (listSplit lens t.children).map .node
  | a + 1, lens, t => (tposeT lens.length (t.children.map (splitT a lens))).map .node

/-- Child count of the head tensor: the off-axis leading dimension shared by
all inputs of a concat along a deeper axis. -/
def headChildCount : List Tensor → Nat
  | [] => 0
  | t :: _ => t.children.length

/-- Modelled from the spec: the runtime helper `Concat(inputs, axis)` (not
under src/) — join the tensors along `axis`.  Axis 0 appends the children;
a deeper axis zips the inputs' children positionwise and concatenates each
group one axis lower. -/
def concatT : Nat → List Tensor → Tensor
  | 0, ts => .node (ts.map Tensor.children).flatten
  | a + 1, ts => .node ((tposeT (headChildCount ts) (ts.map Tensor.children)).map (concatT a))

/-- `ConcatOp::RunImpl`: delegates to the helper. -/
def concatOpRun (axis : Nat) (inputs : List Tensor) : Tensor := concatT axis inputs

/-- `SplitOp::RunImpl`: use the explicit per-segment lengths if given,
otherwise `CHECK_EQ(0, dim % num_splits)` and divide the axis evenly by the
output count. -/
def splitOpRun (split : List Nat) (axis : Nat) (numOutputs : Nat) (x : Tensor) :
    Except Err (List Tensor) :=
  if split.isEmpty then
    let dim := x.tshape.getD axis 0
    if dim % numOutputs = 0 then
      .ok (splitT axis (List.replicate numOutputs (dim / numOutputs)) x)
    else .error .fatal
  else .ok (splitT axis split x)

/-! ### The VM: jump kernels and the Dispatcher (xcvm_ops.cc:584-594)

`JmpTrueOp::RunImpl` / `JmpFalseOp::RunImpl` read a 0-d condition array,
and when the condition fires call `st->set_pc(pc - 1)` with their target
attribute `pc`.  The Dispatcher loop itself (`xcvm.cc`) is not under src/;
it is modelled from the spec (§4.2): while the program counter is in
bounds, fetch the instruction, run its kernel, then advance the counter by
one — a kernel that called `set_pc` has its value incremented as-is, which
is why jump kernels store `target − 1`.  The program counter is a signed
integer, as in the source. -/

/-- The instructions the claims exercise: the two conditional jumps (with
the input variable id of the condition and the `pc` target attribute) and a
kernel with no control-flow effect. -/
inductive Instr where
  | jmpTrue (cond : Nat) (pc : Int)
  | jmpFalse (cond : Nat) (pc : Int)
  | nop
deriving DecidableEq, Repr

/-- The register file and program counter (`XCVMState`). -/
structure VMState where
  pc : Int
  regs : List (Option Arr)
deriving DecidableEq, Repr

/-- `XCVMState::GetVar`: a fatal error if the variable holds no value. -/
def readVar (st : VMState) (v : Nat) : Except Err Arr :=
  match st.regs.getD v none with
  | some a => .ok a
  | none => .error .fatal

/-- `static_cast<bool>(chainerx::AsScalar(cond))` on the 0-d condition. -/
def asBool (a : Arr) : Bool := a.scalar ≠ 0

/-- One kernel invocation (`RunImpl`): only the jump kernels touch the
program counter, and only when their condition fires. -/
def runKernel (st : VMState) : Instr → Except Err VMState
  | .jmpTrue v t => (readVar st v).map fun c => if asBool c then { st with pc := t - 1 } else st
  | .jmpFalse v t => (readVar st v).map fun c => if !asBool c then { st with pc := t - 1 } else st
  | .nop => .ok st

/-- Modelled from the spec: one iteration of the Dispatcher loop (§4.2),
which is outside src/ — fetch the instruction at the program counter, run
its kernel, then set `pc = pc + 1` on whatever counter the kernel left.
Returns the new state and the index of the instruction executed in this
step; a counter outside the program is the loop's exit, modelled as an
error value no theorem examines. -/
def stepVM (prog : List Instr) (st : VMState) : Except Err (VMState × Nat) :=
  if h : 0 ≤ st.pc ∧ st.pc.toNat < prog.length then
    (runKernel st (prog.get ⟨st.pc.toNat, h.2⟩)).map
      fun st' => ({ st' with pc := st'.pc + 1 }, st.pc.toNat)
  else .error .fatal

/-- The Dispatcher loop with explicit fuel, collecting the trace of executed
instruction indices; it stops when the counter leaves the program. -/
def runVM (prog : List Instr) : Nat → VMState → List Nat
  | 0, _ => []
  | fuel + 1, st =>
    match stepVM prog st with
    | .ok (st', i) => i :: runVM prog fuel st'
    | .error _ => []

/-!
## Theorems

Helper lemmas first, then one theorem per claim (with its witness or
counterexample where required).
-/

theorem prodNat_cons (d : Nat) (s : List Nat) : prodNat (d :: s) = d * prodNat s := rfl

/-- A `0` anywhere in the requested shape makes the scan loop of
`ReshapeOp::RunImpl` hit `CHECK_NE(0, d)`. -/
theorem reshapeScan_zero {s : List Int} (h : (0 : Int) ∈ s) :
    ∀ (i acc : Nat) (idx : Option Nat), reshapeScan s i acc idx = none := by
  induction s with
  | nil => simp at h
  | cons d rest ih =>
    intro i acc idx
    rcases List.mem_cons.1 h with h0 | h0
    · simp [reshapeScan, h0.symm]
    · by_cases hd : d = 0
      · simp [reshapeScan, hd]
      · by_cases hneg : d < 0 <;> simp [reshapeScan, hd, hneg, ih h0]

/-- C9: a Reshape whose target shape contains a `0` entry aborts with a
fatal error, for every source array — in particular for an empty one — so a
shape with a zero dimension can never be produced by Reshape. -/
theorem reshape_zero_dim_fatal (data : Arr) (s : List Int) (h : (0 : Int) ∈ s) :
    reshapeRun data s = .error .fatal := by
  unfold reshapeRun
  rw [reshapeScan_zero h]

theorem reshape_zero_dim_fatal_witness :
    (0 : Int) ∈ [(0 : Int)] ∧ reshapeRun ⟨[0], []⟩ [0] = .error .fatal :=
  ⟨by decide, reshape_zero_dim_fatal ⟨[0], []⟩ [0] (by decide)⟩

theorem prodNat_insertIdx_one (s : List Nat) (d : Nat) :
    prodNat (s.insertIdx d 1) = prodNat s := by
  induction s generalizing d with
  | nil => cases d <;> simp [List.insertIdx, prodNat]
  | cons x xs ih =>
    cases d with
    | zero => simp [List.insertIdx, prodNat_cons]
    | succ d =>
      rw [List.insertIdx_succ_cons, prodNat_cons, prodNat_cons, ih]

/-- The insertion loop preserves the total element count. -/
theorem unsqueezeShape_prod (axes : List Nat) (s s' : List Nat)
    (h : unsqueezeShape axes s = .ok s') : prodNat s' = prodNat s := by
  induction axes generalizing s with
  | nil =>
    simp [unsqueezeShape] at h
    rw [h]
  | cons d ds ih =>
    by_cases hd : d ≤ s.length
    · rw [unsqueezeShape, if_pos hd] at h
      rw [ih _ h, prodNat_insertIdx_one]
    · rw [unsqueezeShape, if_neg hd] at h
      exact absurd h (by simp)

theorem prodInt_map_ofNat (s : List Nat) : prodInt (s.map Int.ofNat) = (prodNat s : Int) := by
  induction s with
  | nil => rfl
  | cons x xs ih =>
    show Int.ofNat x * prodInt (xs.map Int.ofNat) = ((x * prodNat xs : Nat) : Int)
    rw [ih, Int.ofNat_eq_natCast, Int.natCast_mul]

/-- C10: Unsqueeze inserts its size-1 axes one at a time in the listed
order, each position interpreted against the shape already extended by the
earlier insertions; a position equal to the current rank appends a trailing
size-1 axis, a position strictly greater than the current rank is a fatal
error, and a successful insertion sequence yields the extended shape over
the unchanged buffer. -/
theorem unsqueeze_axes_sequential (s : List Nat) (d : Nat) (ds axes : List Nat)
    (data : Arr) (hdata : data.shape = s) :
    (d ≤ s.length → unsqueezeShape (d :: ds) s = unsqueezeShape ds (s.insertIdx d 1))
    ∧ unsqueezeShape (s.length :: ds) s = unsqueezeShape ds (s ++ [1])
    ∧ (s.length < d → unsqueezeShape (d :: ds) s = .error .fatal
        ∧ unsqueezeRun data (d :: ds) = .error .fatal)
    ∧ (∀ s', unsqueezeShape axes s = .ok s' →
        unsqueezeRun data axes = .ok ⟨s', data.data⟩) := by
  refine ⟨fun h => by rw [unsqueezeShape, if_pos h], ?_, fun h => ⟨?_, ?_⟩, fun s' h => ?_⟩
  · rw [unsqueezeShape, if_pos (Nat.le_refl _), List.insertIdx_length_self]
  · rw [unsqueezeShape, if_neg (Nat.not_le.2 h)]
  · rw [unsqueezeRun, hdata, unsqueezeShape, if_neg (Nat.not_le.2 h)]
    rfl
  · rw [unsqueezeRun, hdata, h]
    show chxReshape data (s'.map Int.ofNat) = _
    have hp : prodInt (s'.map Int.ofNat) = (prodNat data.shape : Int) := by
      rw [prodInt_map_ofNat, unsqueezeShape_prod axes s s' h, hdata]
    rw [chxReshape, if_pos hp]
    have hmap : (s'.map Int.ofNat).map Int.toNat = s' := by
      simp [List.map_map, Function.comp_def, Int.toNat_ofNat]
    rw [hmap]

theorem unsqueeze_axes_sequential_witness :
    unsqueezeShape [2, 0] [2, 3] = unsqueezeShape [0] ([2, 3] ++ [1])
    ∧ unsqueezeShape [3] [2, 3] = .error .fatal
    ∧ unsqueezeRun ⟨[2, 3], [0, 1, 2, 3, 4, 5]⟩ [3] = .error .fatal
    ∧ unsqueezeRun ⟨[2, 3], [0, 1, 2, 3, 4, 5]⟩ [2, 0]
        = .ok ⟨[1, 2, 3, 1], [0, 1, 2, 3, 4, 5]⟩ :=
  ⟨(unsqueeze_axes_sequential [2, 3] 2 [0] [2, 0] ⟨[2, 3], [0, 1, 2, 3, 4, 5]⟩ rfl).2.1,
   ((unsqueeze_axes_sequential [2, 3] 3 [] [] ⟨[2, 3], [0, 1, 2, 3, 4, 5]⟩ rfl).2.2.1
      (by decide)).1,
   ((unsqueeze_axes_sequential [2, 3] 3 [] [] ⟨[2, 3], [0, 1, 2, 3, 4, 5]⟩ rfl).2.2.1
      (by decide)).2,
   (unsqueeze_axes_sequential [2, 3] 0 [] [2, 0] ⟨[2, 3], [0, 1, 2, 3, 4, 5]⟩ rfl).2.2.2
      [1, 2, 3, 1] (by decide)⟩

/-- C8: at every element position, the Clip kernel's formula
`-max(-max(x, min), -max_)` computes the clamp of the element to the
interval `[min, max]`, i.e. `min(max(x_i, min), max)`, and the shape is
unchanged. -/
theorem clip_is_clamp (x : Arr) (mn mx : Int) (_h : mn ≤ mx) :
    (clipRun x mn mx).shape = x.shape
    ∧ ∀ i, i < x.data.length →
        (clipRun x mn mx).data.getD i 0 = min (max (x.data.getD i 0) mn) mx := by
  refine ⟨rfl, fun i hi => ?_⟩
  have hlen : i < (x.data.map fun v => -(max (-(max v mn)) (-mx))).length := by
    simpa using hi
  rw [clipRun, List.getD_eq_getElem _ _ hlen, List.getElem_map,
    List.getD_eq_getElem _ _ hi, max_neg_neg, neg_neg]

theorem clip_is_clamp_witness :
    (-2 : Int) ≤ 5
    ∧ (clipRun ⟨[4], [-7, 0, 3, 99]⟩ (-2) 5).shape = [4]
    ∧ (clipRun ⟨[4], [-7, 0, 3, 99]⟩ (-2) 5).data.getD 0 0 = min (max (-7) (-2)) 5
    ∧ (clipRun ⟨[4], [-7, 0, 3, 99]⟩ (-2) 5).data.getD 3 0 = min (max 99 (-2)) 5 :=
  ⟨by decide,
   (clip_is_clamp ⟨[4], [-7, 0, 3, 99]⟩ (-2) 5 (by decide)).1,
   (clip_is_clamp ⟨[4], [-7, 0, 3, 99]⟩ (-2) 5 (by decide)).2 0 (by decide),
   (clip_is_clamp ⟨[4], [-7, 0, 3, 99]⟩ (-2) 5 (by decide)).2 3 (by decide)⟩

/-- C7: in a step of the n-ary Max fold where the operands' total element
counts differ and neither is `1`, the kernel aborts with a fatal error
(`CHECK_EQ(an, bn)` — broadcasted max is unsupported), also through
`MaxOp::RunImpl`; and the per-element fallback branch is taken exactly when
the two counts are equal (neither operand a single element). -/
theorem max_broadcast_unsupported (a b : Arr) (ha : a.size ≠ 1) (hb : b.size ≠ 1) :
    (a.size ≠ b.size →
      elementwiseMax a b = .error .fatal
      ∧ elementwiseMaxPath a b = .mismatch
      ∧ maxOpRun [a, b] = .error .fatal)
    ∧ (elementwiseMaxPath a b = .slow ↔ a.size = b.size) := by
  constructor
  · intro hne
    refine ⟨?_, ?_, ?_⟩
    · rw [elementwiseMax, if_neg ha, if_neg hb, if_neg hne]
    · rw [elementwiseMaxPath, if_neg ha, if_neg hb, if_neg hne]
    · show Except.bind (elementwiseMax a b) _ = _
      rw [elementwiseMax, if_neg ha, if_neg hb, if_neg hne]
      rfl
  · constructor
    · intro hpath
      by_contra hne
      rw [elementwiseMaxPath, if_neg ha, if_neg hb, if_neg hne] at hpath
      exact absurd hpath (by decide)
    · intro heq
      rw [elementwiseMaxPath, if_neg ha, if_neg hb, if_pos heq]

theorem max_broadcast_unsupported_witness :
    elementwiseMax ⟨[2], [1, 2]⟩ ⟨[3], [1, 2, 3]⟩ = .error .fatal
    ∧ elementwiseMaxPath ⟨[2], [1, 2]⟩ ⟨[3], [1, 2, 3]⟩ = .mismatch
    ∧ maxOpRun [⟨[2], [1, 2]⟩, ⟨[3], [1, 2, 3]⟩] = .error .fatal
    ∧ (elementwiseMaxPath ⟨[2], [1, 2]⟩ ⟨[2], [5, 0]⟩ = .slow ↔
        Arr.size ⟨[2], [1, 2]⟩ = Arr.size ⟨[2], [5, 0]⟩) :=
  ⟨((max_broadcast_unsupported ⟨[2], [1, 2]⟩ ⟨[3], [1, 2, 3]⟩ (by decide) (by decide)).1
      (by decide)).1,
   ((max_broadcast_unsupported ⟨[2], [1, 2]⟩ ⟨[3], [1, 2, 3]⟩ (by decide) (by decide)).1
      (by decide)).2.1,
   ((max_broadcast_unsupported ⟨[2], [1, 2]⟩ ⟨[3], [1, 2, 3]⟩ (by decide) (by decide)).1
      (by decide)).2.2,
   (max_broadcast_unsupported ⟨[2], [1, 2]⟩ ⟨[2], [5, 0]⟩ (by decide) (by decide)).2⟩

theorem prodNat_eq_prod (s : List Nat) : prodNat s = s.prod := by
  induction s with
  | nil => rfl
  | cons x xs ih => rw [prodNat_cons, List.prod_cons, ih]

/-- The scan loop of `ReshapeOp::RunImpl` walks over a run of positive
dimensions by multiplying them into the accumulator. -/
theorem reshapeScan_pos_append (l : List Int) (hpos : ∀ d ∈ l, 0 < d) (rest : List Int) :
    ∀ (i acc : Nat) (idx : Option Nat),
    reshapeScan (l ++ rest) i acc idx
      = reshapeScan rest (i + l.length) (acc * (l.map Int.toNat).prod) idx := by
  induction l with
  | nil => intro i acc idx; simp
  | cons d ds ih =>
    intro i acc idx
    have hd : 0 < d := hpos d (by simp)
    rw [List.cons_append]
    show reshapeScan (d :: (ds ++ rest)) i acc idx = _
    rw [reshapeScan, if_neg (by omega), if_neg (by omega),
      ih (fun x hx => hpos x (by simp [hx])) (i + 1) (acc * d.toNat) idx]
    congr 1
    · simp; omega
    · simp [Nat.mul_assoc]

theorem reshapeScan_pos_nil (l : List Int) (hpos : ∀ d ∈ l, 0 < d)
    (i acc : Nat) (idx : Option Nat) :
    reshapeScan l i acc idx = some (acc * (l.map Int.toNat).prod, idx) := by
  have h := reshapeScan_pos_append l hpos [] i acc idx
  simpa [reshapeScan] using h

/-- The scan of a target shape with exactly one `-1` among positive
dimensions: the accumulator collects the positive dimensions and the index
records the position of the `-1`. -/
theorem reshapeScan_one_minus (s₁ s₂ : List Int)
    (h₁ : ∀ d ∈ s₁, 0 < d) (h₂ : ∀ d ∈ s₂, 0 < d) :
    reshapeScan (s₁ ++ -1 :: s₂) 0 1 none
      = some (((s₁ ++ s₂).map Int.toNat).prod, some s₁.length) := by
  rw [reshapeScan_pos_append s₁ h₁ (-1 :: s₂) 0 1 none, Nat.zero_add, Nat.one_mul]
  rw [reshapeScan, if_neg (by omega), if_pos (by omega)]
  rw [reshapeScan_pos_nil s₂ h₂ _ _ _]
  congr 2
  rw [List.map_append, List.prod_append]

theorem prodInt_of_pos (l : List Int) (h : ∀ d ∈ l, 0 < d) :
    prodInt l = (((l.map Int.toNat).prod : Nat) : Int) := by
  induction l with
  | nil => rfl
  | cons d ds ih =>
    have hd : 0 < d := h d (by simp)
    show d * prodInt ds = _
    rw [ih (fun x hx => h x (by simp [hx])), List.map_cons, List.prod_cons,
      Int.natCast_mul, Int.toNat_of_nonneg (by omega : (0 : Int) ≤ d)]

theorem prod_toNat_pos (l : List Int) (h : ∀ d ∈ l, 0 < d) :
    0 < (l.map Int.toNat).prod := by
  induction l with
  | nil => simp
  | cons d ds ih =>
    have hd : 0 < d := h d (by simp)
    have hds := ih (fun x hx => h x (by simp [hx]))
    rw [List.map_cons, List.prod_cons]
    exact Nat.mul_pos (by omega) hds

theorem prodInt_append_cons (s₁ s₂ : List Int) (v : Int) :
    prodInt (s₁ ++ v :: s₂) = prodInt s₁ * (v * prodInt s₂) := by
  induction s₁ with
  | nil =>
    show v * prodInt s₂ = 1 * (v * prodInt s₂)
    ring
  | cons y ys ih =>
    show y * prodInt (ys ++ v :: s₂) = y * prodInt ys * (v * prodInt s₂)
    rw [ih]
    ring

/-- Reduce `ReshapeOp::RunImpl` once its scan result is known. -/
theorem reshapeRun_reduce (data : Arr) (s : List Int) (Pv k : Nat)
    (hscan : reshapeScan s 0 1 none = some (Pv, some k)) :
    reshapeRun data s
      = (if prodNat data.shape = Pv then chxReshape data s
         else if Pv < prodNat data.shape ∧ prodNat data.shape % Pv = 0 then
           chxReshape data (s.set k ((prodNat data.shape / Pv : Nat) : Int))
         else .error .fatal) := by
  rw [reshapeRun, hscan]

theorem set_append_middle (s₁ s₂ : List Int) (x v : Int) :
    (s₁ ++ x :: s₂).set s₁.length v = s₁ ++ v :: s₂ := by
  induction s₁ with
  | nil => rfl
  | cons y ys ih => simp [List.set, ih]

/-- C2 (amended): for a Reshape whose target shape is one `-1` surrounded by
positive dimensions, let `P` be the product of the positive dimensions and
`T` the source's total element count.  When `P < T` and `P` evenly divides
`T`, the `-1` resolves to `T / P` and the output's total element count
equals `T`.  In every other case — `P` not dividing `T`, `P > T`, `P = T`
(the kernel then leaves the `-1` unresolved and the engine's exact-size
check rejects it), and in particular an empty source (`T = 0`) — execution
aborts with a fatal error. -/
theorem reshape_minus_one (data : Arr) (s₁ s₂ : List Int) (P T : Nat)
    (h₁ : ∀ d ∈ s₁, 0 < d) (h₂ : ∀ d ∈ s₂, 0 < d)
    (hP : P = ((s₁ ++ s₂).map Int.toNat).prod) (hT : T = prodNat data.shape) :
    (P < T ∧ T % P = 0 →
      reshapeRun data (s₁ ++ -1 :: s₂)
        = .ok ⟨(s₁ ++ ((T / P : Nat) : Int) :: s₂).map Int.toNat, data.data⟩
      ∧ prodNat ((s₁ ++ ((T / P : Nat) : Int) :: s₂).map Int.toNat) = T)
    ∧ (¬(P < T ∧ T % P = 0) → reshapeRun data (s₁ ++ -1 :: s₂) = .error .fatal) := by
  have hPpos : 0 < P := hP ▸ prod_toNat_pos _ (by
    intro d hd
    rcases List.mem_append.1 hd with h | h
    exacts [h₁ d h, h₂ d h])
  have hPfac : P = (s₁.map Int.toNat).prod * (s₂.map Int.toNat).prod := by
    rw [hP, List.map_append, List.prod_append]
  have hcast : ((T / P : Nat) : Int).toNat = T / P := Int.toNat_natCast _
  have hreduce := reshapeRun_reduce data (s₁ ++ -1 :: s₂) P s₁.length
    (hP ▸ reshapeScan_one_minus s₁ s₂ h₁ h₂)
  rw [← hT] at hreduce
  constructor
  · rintro ⟨hlt, hdvd⟩
    have hTP : ¬ T = P := by omega
    rw [hreduce, if_neg hTP, if_pos ⟨hlt, hdvd⟩, set_append_middle]
    have hnat : (s₁.map Int.toNat).prod * (T / P * (s₂.map Int.toNat).prod) = T := by
      have e : (s₁.map Int.toNat).prod * (T / P * (s₂.map Int.toNat).prod)
          = P * (T / P) := by
        rw [hPfac]
        ring
      rw [e, Nat.mul_div_cancel' (Nat.dvd_of_mod_eq_zero hdvd)]
    have hchx : prodInt (s₁ ++ ((T / P : Nat) : Int) :: s₂)
        = (prodNat data.shape : Int) := by
      rw [prodInt_append_cons, prodInt_of_pos s₁ h₁, prodInt_of_pos s₂ h₂, ← hT]
      exact_mod_cast hnat
    rw [chxReshape, if_pos hchx]
    refine ⟨rfl, ?_⟩
    rw [prodNat_eq_prod, List.map_append, List.prod_append, List.map_cons,
      List.prod_cons, hcast]
    exact hnat
  · intro hn
    by_cases hTP : T = P
    · have hne : ¬ prodInt (s₁ ++ -1 :: s₂) = (prodNat data.shape : Int) := by
        have e1 : prodInt (s₁ ++ -1 :: s₂) = -(P : Int) := by
          rw [prodInt_append_cons, prodInt_of_pos s₁ h₁, prodInt_of_pos s₂ h₂, hPfac]
          push_cast
          ring
        rw [e1, ← hT, hTP]
        omega
      rw [hreduce, if_pos hTP, chxReshape, if_neg hne]
    · rw [hreduce, if_neg hTP, if_neg hn]

/-- C2, counterexample to the claim as stated: an empty source array
(shape `(0,)`, total size `0`) reshaped to `(-1,)` — the product of the
other target dimensions is `1`, which evenly divides `0`, so the claim
asserts the `-1` resolves to `0`; the kernel instead hits
`CHECK_GT(from_total_size, to_total_size)` and aborts. -/
theorem reshape_minus_one_cex :
    reshapeRun ⟨[0], []⟩ [-1] = .error .fatal ∧ prodNat [0] % 1 = 0 := by
  constructor <;> rfl

theorem reshape_minus_one_witness :
    reshapeRun ⟨[2, 3], [1, 2, 3, 4, 5, 6]⟩ [-1] = .ok ⟨[6], [1, 2, 3, 4, 5, 6]⟩
    ∧ prodNat [6] = prodNat [2, 3]
    ∧ reshapeRun ⟨[2, 3], [1, 2, 3, 4, 5, 6]⟩ [-1, 4] = .error .fatal :=
  ⟨((reshape_minus_one ⟨[2, 3], [1, 2, 3, 4, 5, 6]⟩ [] [] 1 6 (by simp) (by simp) rfl rfl).1
      ⟨by decide, by decide⟩).1,
   ((reshape_minus_one ⟨[2, 3], [1, 2, 3, 4, 5, 6]⟩ [] [] 1 6 (by simp) (by simp) rfl rfl).1
      ⟨by decide, by decide⟩).2,
   (reshape_minus_one ⟨[2, 3], [1, 2, 3, 4, 5, 6]⟩ [] [4] 4 6 (by simp) (by simp) rfl rfl).2
      (by decide)⟩

/-- C3: the kernel never counts the `-1` entries; with source `(1,)` and
target `(-1, -1)` both stay unresolved, and the engine's total-size check
passes (`(-1) · (-1) = 1`), so no fatal error occurs — an ill-formed array
(negative dimensions, clamped to `0` in the model) is produced instead. -/
theorem reshape_two_minus_one_not_fatal :
    reshapeRun ⟨[1], [7]⟩ [-1, -1] = .ok ⟨[0, 0], [7]⟩ := rfl

/-- C5: with `alpha = 1` and `beta = 0`, Gemm equals `Dot` applied to the
operands after the optional transposes and the rank>2 flattening, for every
bias input `C` — the result does not depend on `C`, which is never added.
Concretely, `A` of shape `(3,4,2,2)` and `B` of shape `(16,2)` with no
transposes: `A` is flattened to `(3,16)` and the result has shape `(3,2)`. -/
theorem gemm_alpha1_beta0 :
    (∀ (a b c c' : Arr) (tA tB : Bool),
      gemmRun a b c tA tB 1 0
        = dotArr (gemmFlatten (if tA then transposeRev a else a))
                 (gemmFlatten (if tB then transposeRev b else b))
      ∧ gemmRun a b c tA tB 1 0 = gemmRun a b c' tA tB 1 0)
    ∧ (gemmFlatten ⟨[3, 4, 2, 2], List.replicate 48 1⟩).shape = [3, 16]
    ∧ (gemmRun ⟨[3, 4, 2, 2], List.replicate 48 1⟩ ⟨[16, 2], List.replicate 32 1⟩
         ⟨[], []⟩ false false 1 0).toOption.map Arr.shape = some [3, 2] := by
  have key : ∀ (a b c : Arr) (tA tB : Bool),
      gemmRun a b c tA tB 1 0
        = dotArr (gemmFlatten (if tA then transposeRev a else a))
                 (gemmFlatten (if tB then transposeRev b else b)) := by
    intro a b c tA tB
    rw [gemmRun]
    cases h : dotArr (gemmFlatten (if tA then transposeRev a else a))
        (gemmFlatten (if tB then transposeRev b else b)) with
    | error e => simp [h, Except.bind]
    | ok r => simp [h, Except.bind]
  refine ⟨fun a b c c' tA tB => ⟨key a b c tA tB, ?_⟩, rfl, ?_⟩
  · rw [key a b c tA tB, key a b c' tA tB]
  · rw [key]
    rfl

/-- C1: when the instruction at in-bounds index `i` is `JmpTrue` (resp.
`JmpFalse`) with target `t` and its 0-d condition input is true (resp.
false), the kernel sets the program counter to `t - 1`, and the Dispatcher
step — which executes exactly the instruction at index `i`, no other —
leaves the counter at `t` after its default increment, so the next
instruction executed is the one at index `t`; when the condition does not
fire, the kernel leaves the counter untouched and the step falls through to
`i + 1`. -/
theorem jmp_pc_semantics (prog : List Instr) (st : VMState) (i v : Nat) (t : Int) (c : Arr)
    (hpc : st.pc = (i : Int)) (hi : i < prog.length)
    (hv : st.regs.getD v none = some c) :
    (prog.getD i .nop = .jmpTrue v t →
      runKernel st (.jmpTrue v t)
        = .ok (if asBool c then { st with pc := t - 1 } else st)
      ∧ (asBool c = true → stepVM prog st = .ok ({ st with pc := t }, i))
      ∧ (asBool c = false → stepVM prog st = .ok ({ st with pc := (i : Int) + 1 }, i)))
    ∧ (prog.getD i .nop = .jmpFalse v t →
      runKernel st (.jmpFalse v t)
        = .ok (if asBool c then st else { st with pc := t - 1 })
      ∧ (asBool c = false → stepVM prog st = .ok ({ st with pc := t }, i))
      ∧ (asBool c = true → stepVM prog st = .ok ({ st with pc := (i : Int) + 1 }, i))) := by
  have hbounds : 0 ≤ st.pc ∧ st.pc.toNat < prog.length := by
    constructor <;> simp [hpc, hi]
  have htn : st.pc.toNat = i := by simp [hpc]
  have hget : prog.get ⟨st.pc.toNat, hbounds.2⟩ = prog.getD i .nop := by
    rw [List.getD_eq_getElem _ _ (htn ▸ hi)]
    simp [htn, List.get_eq_getElem]
  constructor
  · intro hinstr
    have hk : runKernel st (.jmpTrue v t)
        = .ok (if asBool c then { st with pc := t - 1 } else st) := by
      rw [runKernel, readVar, hv]
      cases hb : asBool c <;> simp [hb, Except.map]
    refine ⟨hk, fun hb => ?_, fun hb => ?_⟩
    · rw [stepVM, dif_pos hbounds, hget, hinstr, hk, hb]
      simp [Except.map, htn, Int.sub_add_cancel]
    · rw [stepVM, dif_pos hbounds, hget, hinstr, hk, hb]
      simp [Except.map, htn, hpc]
  · intro hinstr
    have hk : runKernel st (.jmpFalse v t)
        = .ok (if asBool c then st else { st with pc := t - 1 }) := by
      rw [runKernel, readVar, hv]
      cases hb : asBool c <;> simp [hb, Except.map]
    refine ⟨hk, fun hb => ?_, fun hb => ?_⟩
    · rw [stepVM, dif_pos hbounds, hget, hinstr, hk, hb]
      simp [Except.map, htn, Int.sub_add_cancel]
    · rw [stepVM, dif_pos hbounds, hget, hinstr, hk, hb]
      simp [Except.map, htn, hpc]

theorem flatIndex_lt_prodNat (s : List Nat) :
    ∀ ix, InBounds s ix → flatIndex s ix < prodNat s := by
  induction s with
  | nil =>
    intro ix h
    cases ix with
    | nil => simp [flatIndex, prodNat]
    | cons i ix => exact h.elim
  | cons d s ih =>
    intro ix h
    cases ix with
    | nil => exact h.elim
    | cons i ix =>
      obtain ⟨hi, hrest⟩ := h
      have hlt := ih ix hrest
      show i * prodNat s + flatIndex s ix < d * prodNat s
      have h1 : (i + 1) * prodNat s = i * prodNat s + prodNat s := by ring
      have h2 : (i + 1) * prodNat s ≤ d * prodNat s :=
        Nat.mul_le_mul_right _ (by omega)
      omega

theorem unflatten_flatIndex (s : List Nat) :
    ∀ ix, InBounds s ix → unflatten s (flatIndex s ix) = ix := by
  induction s with
  | nil =>
    intro ix h
    cases ix with
    | nil => rfl
    | cons i ix => exact h.elim
  | cons d s ih =>
    intro ix h
    cases ix with
    | nil => exact h.elim
    | cons i ix =>
      obtain ⟨hi, hrest⟩ := h
      have hlt := flatIndex_lt_prodNat s ix hrest
      have hpos : 0 < prodNat s := by omega
      have e : i * prodNat s + flatIndex s ix = prodNat s * i + flatIndex s ix := by ring
      have hdiv : (i * prodNat s + flatIndex s ix) / prodNat s = i := by
        rw [e, Nat.mul_add_div hpos, Nat.div_eq_of_lt hlt, Nat.add_zero]
      have hmod : (i * prodNat s + flatIndex s ix) % prodNat s = flatIndex s ix := by
        rw [e, Nat.mul_add_mod, Nat.mod_eq_of_lt hlt]
      show (i * prodNat s + flatIndex s ix) / prodNat s
          :: unflatten s ((i * prodNat s + flatIndex s ix) % prodNat s) = i :: ix
      rw [hdiv, hmod, ih ix hrest]

theorem inBounds_length (s : List Nat) :
    ∀ ix, InBounds s ix → ix.length = s.length := by
  induction s with
  | nil =>
    intro ix h
    cases ix with
    | nil => rfl
    | cons i ix => exact h.elim
  | cons d s ih =>
    intro ix h
    cases ix with
    | nil => exact h.elim
    | cons i ix => simpa using ih ix h.2

/-- An in-bounds index of the source, shifted by the "before" pads, is an
in-bounds index of the padded shape. -/
theorem inBounds_pad_shift (s : List Nat) :
    ∀ (bef aft ix : List Nat), bef.length = s.length → aft.length = s.length →
      InBounds s ix →
      InBounds ((s.zipWith (· + ·) bef).zipWith (· + ·) aft) (bef.zipWith (· + ·) ix) := by
  induction s with
  | nil =>
    intro bef aft ix hb ha h
    cases ix with
    | cons i ix => exact h.elim
    | nil =>
      cases bef with
      | cons b bs => simp at hb
      | nil =>
        cases aft with
        | cons a as => simp at ha
        | nil => exact trivial
  | cons d s ih =>
    intro bef aft ix hb ha h
    cases bef with
    | nil => simp at hb
    | cons b bef =>
      cases aft with
      | nil => simp at ha
      | cons a aft =>
        cases ix with
        | nil => exact h.elim
        | cons i ix =>
          show b + i < d + b + a
            ∧ InBounds ((s.zipWith (· + ·) bef).zipWith (· + ·) aft)
                (bef.zipWith (· + ·) ix)
          refine ⟨?_, ih bef aft ix (by simpa using hb) (by simpa using ha) h.2⟩
          have := h.1
          omega

/-- A shifted in-bounds index lies inside the interior block. -/
theorem insideBlock_shift (s : List Nat) :
    ∀ (bef ix : List Nat), bef.length = s.length → InBounds s ix →
      insideBlock bef s (bef.zipWith (· + ·) ix) = true := by
  induction s with
  | nil =>
    intro bef ix hb h
    cases ix with
    | cons i ix => exact h.elim
    | nil =>
      cases bef with
      | cons b bs => simp at hb
      | nil => rfl
  | cons d s ih =>
    intro bef ix hb h
    cases bef with
    | nil => simp at hb
    | cons b bef =>
      cases ix with
      | nil => exact h.elim
      | cons i ix =>
        show (b ≤ b + i && b + i < b + d && insideBlock bef s (bef.zipWith (· + ·) ix)) = true
        have hi := h.1
        rw [ih bef ix (by simpa using hb) h.2]
        simp
        omega

/-- Shifting by the "before" pads and subtracting them back is the
identity on indices. -/
theorem zip_add_sub (bef : List Nat) :
    ∀ ix : List Nat, bef.length = ix.length →
      (bef.zipWith (· + ·) ix).zipWith (fun j b => j - b) bef = ix := by
  induction bef with
  | nil =>
    intro ix h
    have : ix = [] := by
      cases ix with
      | nil => rfl
      | cons i ix => simp at h
    subst this
    rfl
  | cons b bef ih =>
    intro ix h
    cases ix with
    | nil => simp at h
    | cons i ix =>
      show (b + i - b) :: ((bef.zipWith (· + ·) ix).zipWith (fun j b => j - b) bef) = i :: ix
      rw [ih ix (by simpa using h)]
      congr 1
      omega

theorem getD_range_map (n k : Nat) (f : Nat → Int) (hk : k < n) :
    ((List.range n).map f).getD k 0 = f k := by
  rw [List.getD_eq_getElem _ _ (by simpa using hk), List.getElem_map, List.getElem_range]

theorem getD_zipWith_nat (f : Nat → Nat → Nat) (l₁ l₂ : List Nat) (i : Nat)
    (h₁ : i < l₁.length) (h₂ : i < l₂.length) :
    (l₁.zipWith f l₂).getD i 0 = f (l₁.getD i 0) (l₂.getD i 0) := by
  rw [List.getD_eq_getElem _ _ (by rw [List.length_zipWith]; omega),
    List.getD_eq_getElem _ _ h₁, List.getD_eq_getElem _ _ h₂, List.getElem_zipWith]

theorem getD_padBefore (pads : List Int) (n i : Nat) (hi : i < n) (hn : n ≤ pads.length) :
    (padBefore pads n).getD i 0 = (pads.getD i 0).toNat := by
  have hb : i < (padBefore pads n).length := by
    simp [padBefore]
    omega
  have hp : i < pads.length := by omega
  rw [List.getD_eq_getElem _ _ hb, List.getD_eq_getElem _ _ hp]
  simp [padBefore, List.getElem_take]

theorem getD_padAfter (pads : List Int) (n i : Nat) (hi : n + i < pads.length) :
    (padAfter pads n).getD i 0 = (pads.getD (n + i) 0).toNat := by
  have hb : i < (padAfter pads n).length := by
    simp [padAfter]
    omega
  rw [List.getD_eq_getElem _ _ hb, List.getD_eq_getElem _ _ hi]
  simp [padAfter, List.getElem_drop]

theorem length_padBefore (pads : List Int) (n : Nat) (hn : n ≤ pads.length) :
    (padBefore pads n).length = n := by
  simp [padBefore]
  omega

theorem length_padAfter (pads : List Int) (n : Nat) (h : pads.length = 2 * n) :
    (padAfter pads n).length = n := by
  simp [padAfter]
  omega

/-- C6: for data of rank `n`, a non-negative pads list of length `2n` and
fill value `v`, Pad succeeds; the output shape along axis `i` is
`data.shape[i] + pads[i] + pads[i+n]`; the sub-block starting at offset
`pads[i]` on every axis equals the original data element for element; and
every in-bounds position outside that sub-block holds `v`. -/
theorem pad_semantics (data : Arr) (pads : List Int) (v : Int)
    (hlen : pads.length = 2 * data.shape.length) (hpos : ∀ p ∈ pads, 0 ≤ p) :
    ∃ out, padRun data pads v = .ok out
      ∧ (∀ i, i < data.shape.length →
          (out.shape.getD i 0 : Int)
            = (data.shape.getD i 0 : Int) + pads.getD i 0
              + pads.getD (i + data.shape.length) 0)
      ∧ (∀ ix, InBounds data.shape ix →
          out.el ((padBefore pads data.shape.length).zipWith (· + ·) ix) = data.el ix)
      ∧ (∀ jx, InBounds out.shape jx →
          insideBlock (padBefore pads data.shape.length) data.shape jx = false →
          out.el jx = v) := by
  set n := data.shape.length with hn
  set bef := padBefore pads n with hbef
  set aft := padAfter pads n with haft
  set outShape := (data.shape.zipWith (· + ·) bef).zipWith (· + ·) aft with hout
  have hblen : bef.length = n := length_padBefore pads n (by omega)
  have halen : aft.length = n := length_padAfter pads n hlen
  have hcond : pads.length = 2 * n ∧ ∀ p ∈ pads, 0 ≤ p := ⟨hlen, hpos⟩
  have hrun : padRun data pads v
      = .ok ⟨outShape, (List.range (prodNat outShape)).map fun m =>
          let jx := unflatten outShape m
          if insideBlock bef data.shape jx then
            data.el (jx.zipWith (fun j b => j - b) bef)
          else v⟩ := by
    rw [padRun, if_pos hcond]
  refine ⟨_, hrun, fun i hi => ?_, fun ix hix => ?_, fun jx hjx hblock => ?_⟩
  · show (outShape.getD i 0 : Int) = _
    have h1 : i < (data.shape.zipWith (· + ·) bef).length := by
      rw [List.length_zipWith]
      omega
    rw [hout, getD_zipWith_nat _ _ _ _ h1 (by omega),
      getD_zipWith_nat _ _ _ _ (by omega) (by omega),
      hbef, getD_padBefore pads n i hi (by omega),
      haft, getD_padAfter pads n i (by omega)]
    have hm1 : pads.getD i 0 ∈ pads := by
      rw [List.getD_eq_getElem _ _ (by omega : i < pads.length)]
      exact List.getElem_mem _
    have hm2 : pads.getD (n + i) 0 ∈ pads := by
      rw [List.getD_eq_getElem _ _ (by omega : n + i < pads.length)]
      exact List.getElem_mem _
    have e1 := Int.toNat_of_nonneg (hpos _ hm1)
    have e2 := Int.toNat_of_nonneg (hpos _ hm2)
    push_cast
    rw [e1, e2, Nat.add_comm i n]
  · have hinb : InBounds outShape (bef.zipWith (· + ·) ix) :=
      inBounds_pad_shift data.shape bef aft ix hblen halen hix
    have hflt := flatIndex_lt_prodNat outShape _ hinb
    show ((List.range (prodNat outShape)).map _).getD
        (flatIndex outShape (bef.zipWith (· + ·) ix)) 0 = data.el ix
    rw [getD_range_map _ _ _ hflt]
    simp only
    rw [unflatten_flatIndex outShape _ hinb,
      insideBlock_shift data.shape bef ix hblen hix, if_pos rfl,
      zip_add_sub bef ix (by rw [hblen, inBounds_length data.shape ix hix])]
  · have hflt := flatIndex_lt_prodNat outShape _ hjx
    show ((List.range (prodNat outShape)).map _).getD (flatIndex outShape jx) 0 = v
    rw [getD_range_map _ _ _ hflt]
    simp only
    rw [unflatten_flatIndex outShape _ hjx, hblock]
    simp

theorem pad_semantics_witness :
    padRun ⟨[2, 2], [1, 2, 3, 4]⟩ [1, 0, 0, 1] 9
      = .ok ⟨[3, 3], [9, 9, 9, 1, 2, 9, 3, 4, 9]⟩
    ∧ Arr.el ⟨[3, 3], [9, 9, 9, 1, 2, 9, 3, 4, 9]⟩
        ((padBefore [1, 0, 0, 1] 2).zipWith (· + ·) [0, 1])
      = Arr.el ⟨[2, 2], [1, 2, 3, 4]⟩ [0, 1]
    ∧ Arr.el ⟨[3, 3], [9, 9, 9, 1, 2, 9, 3, 4, 9]⟩ [0, 2] = 9 := by
  obtain ⟨out, hrun, hshape, hin, houtv⟩ :=
    pad_semantics ⟨[2, 2], [1, 2, 3, 4]⟩ [1, 0, 0, 1] 9 (by decide) (by decide)
  have hconc : padRun ⟨[2, 2], [1, 2, 3, 4]⟩ [1, 0, 0, 1] 9
      = .ok ⟨[3, 3], [9, 9, 9, 1, 2, 9, 3, 4, 9]⟩ := by decide
  have heq : out = ⟨[3, 3], [9, 9, 9, 1, 2, 9, 3, 4, 9]⟩ :=
    Except.ok.inj (hrun.symm.trans hconc)
  subst heq
  exact ⟨hconc, hin [0, 1] (by decide), houtv [0, 2] (by decide) (by decide)⟩

theorem listSplit_length (L : List Nat) :
    ∀ l : List Tensor, (listSplit L l).length = L.length := by
  induction L with
  | nil => intro l; rfl
  | cons n ns ih =>
    intro l
    show (l.take n :: listSplit ns (l.drop n)).length = ns.length + 1
    rw [List.length_cons, ih]

theorem flatten_listSplit (L : List Nat) :
    ∀ l : List Tensor, L.sum = l.length → (listSplit L l).flatten = l := by
  induction L with
  | nil =>
    intro l h
    have : l = [] := List.length_eq_zero.1 (by simpa using h.symm)
    subst this
    rfl
  | cons n ns ih =>
    intro l h
    have hsum2 : n + ns.sum = l.length := by simpa using h
    show (l.take n :: listSplit ns (l.drop n)).flatten = l
    rw [List.flatten_cons, ih (l.drop n) (by rw [List.length_drop]; omega)]
    exact List.take_append_drop n l

theorem length_tposeT (n : Nat) (rows : List (List Tensor)) :
    (tposeT n rows).length = n := by
  simp [tposeT]

theorem getD_map_lt {α β : Type} (f : α → β) (l : List α) (i : Nat) (d : α) (dd : β)
    (h : i < l.length) :
    (l.map f).getD i dd = f (l.getD i d) := by
  rw [List.getD_eq_getElem _ _ (by rw [List.length_map]; exact h),
    List.getElem_map, List.getD_eq_getElem _ _ h]

theorem getD_tposeT (n : Nat) (rows : List (List Tensor)) (j : Nat) (hj : j < n) :
    (tposeT n rows).getD j [] = rows.map fun r => r.getD j (.scalar 0) := by
  show ((List.range n).map fun j => rows.map fun r => r.getD j (.scalar 0)).getD j [] = _
  rw [getD_map_lt _ _ _ 0 _ (by simpa using hj)]
  have hr : (List.range n).getD j 0 = j := by
    rw [List.getD_eq_getElem _ _ (by simpa using hj), List.getElem_range]
  rw [hr]

theorem getElem_eq_getD_rows (l : List (List Tensor)) (j : Nat) (h : j < l.length) :
    l[j] = l.getD j [] := (List.getD_eq_getElem _ _ h).symm

/-- Transposing a rectangular table twice is the identity. -/
theorem tposeT_tposeT (n : Nat) (rows : List (List Tensor))
    (hrect : ∀ r ∈ rows, r.length = n) :
    tposeT rows.length (tposeT n rows) = rows := by
  refine List.ext_getElem (by rw [length_tposeT]) ?_
  intro i h1 h2
  rw [getElem_eq_getD_rows _ i h1, getD_tposeT _ _ _ h2]
  have hlen_i : rows[i].length = n := hrect _ (List.getElem_mem _)
  refine List.ext_getElem (by rw [List.length_map, length_tposeT, hlen_i]) ?_
  intro j hj1 hj2
  have hjn : j < n := by simpa [List.length_map, length_tposeT] using hj1
  rw [List.getElem_map,
    getElem_eq_getD_rows (tposeT n rows) j (by rwa [length_tposeT]),
    getD_tposeT _ _ _ hjn, getD_map_lt _ _ _ [] _ h2,
    List.getD_eq_getElem _ _ h2, List.getD_eq_getElem _ _ (by rw [hlen_i]; exact hjn)]

theorem length_splitT (a : Nat) :
    ∀ (L : List Nat) (t : Tensor), (splitT a L t).length = L.length := by
  cases a with
  | zero =>
    intro L t
    show ((listSplit L t.children).map Tensor.node).length = L.length
    rw [List.length_map, listSplit_length]
  | succ a =>
    intro L t
    show ((tposeT L.length (t.children.map (splitT a L))).map Tensor.node).length = L.length
    rw [List.length_map, length_tposeT]

theorem headChildCount_tposeT (n : Nat) (hn : 0 < n) (tbl : List (List Tensor)) :
    headChildCount ((tposeT n tbl).map .node) = tbl.length := by
  obtain ⟨m, rfl⟩ : ∃ m, n = m + 1 := ⟨n - 1, by omega⟩
  rw [tposeT, List.range_succ_eq_map]
  simp [headChildCount, Tensor.children]

theorem tshape_wf (s : List Nat) :
    ∀ t, Tensor.wf s t → (∀ d ∈ s, 0 < d) → t.tshape = s := by
  induction s with
  | nil =>
    intro t h _
    cases t with
    | scalar x => rfl
    | node cs => exact h.elim
  | cons n s' ih =>
    intro t h hz
    cases t with
    | scalar x => exact h.elim
    | node cs =>
      obtain ⟨hlen, hcs⟩ := h
      have hn : 0 < n := hz n (by simp)
      cases cs with
      | nil => simp at hlen; omega
      | cons c cs' =>
        show (cs'.length + 1) :: c.tshape = n :: s'
        have hlen2 : cs'.length + 1 = n := by simpa using hlen
        rw [ih c (hcs c (by simp)) (fun d hd => hz d (by simp [hd])), hlen2]

/-- Concat along an axis undoes Split along the same axis with the same
lengths, for a well-formed tensor whose axis dimension the lengths sum to. -/
theorem concatT_splitT (a : Nat) :
    ∀ (s : List Nat) (L : List Nat) (t : Tensor), Tensor.wf s t → a < s.length →
      L ≠ [] → L.sum = s.getD a 0 → concatT a (splitT a L t) = t := by
  induction a with
  | zero =>
    intro s L t hwf ha hL hsum
    cases s with
    | nil => simp at ha
    | cons n s' =>
      cases t with
      | scalar x => exact hwf.elim
      | node cs =>
        obtain ⟨hlen, hcs⟩ := hwf
        show concatT 0 ((listSplit L cs).map .node) = .node cs
        rw [concatT]
        congr 1
        rw [List.map_map]
        have hid : Tensor.children ∘ Tensor.node = id := rfl
        rw [hid, List.map_id]
        exact flatten_listSplit L cs (by rw [hsum]; simpa using hlen.symm)
  | succ a ih =>
    intro s L t hwf ha hL hsum
    cases s with
    | nil => simp at ha
    | cons n s' =>
      cases t with
      | scalar x => exact hwf.elim
      | node cs =>
        obtain ⟨hlen, hcs⟩ := hwf
        have ha' : a < s'.length := by simpa using ha
        have hsum' : L.sum = s'.getD a 0 := hsum
        show concatT (a + 1) ((tposeT L.length (cs.map (splitT a L))).map .node) = .node cs
        rw [concatT]
        rw [headChildCount_tposeT L.length (List.length_pos.2 hL) _]
        have hchildren :
            ((tposeT L.length (cs.map (splitT a L))).map Tensor.node).map Tensor.children
              = tposeT L.length (cs.map (splitT a L)) := by
          rw [List.map_map]
          have hid : Tensor.children ∘ Tensor.node = id := rfl
          rw [hid, List.map_id]
        rw [hchildren]
        rw [tposeT_tposeT L.length (cs.map (splitT a L)) ?hrect]
        case hrect =>
          intro r hr
          obtain ⟨c, _, rfl⟩ := List.mem_map.1 hr
          exact length_splitT a L c
        congr 1
        rw [List.map_map]
        have hstep : ∀ c ∈ cs, (concatT a ∘ splitT a L) c = c := fun c hc =>
          ih s' L c (hcs c hc) ha' hL hsum'
        rw [List.map_congr_left hstep]
        simp

/-- C4: splitting a well-formed array along an axis — with explicit
per-segment lengths summing to the axis dimension, or, for an empty length
list, an output count that evenly divides the axis dimension — and
concatenating the outputs along the same axis reconstructs the array
exactly; an output count that does not evenly divide the dimension is a
fatal error. -/
theorem split_concat_roundtrip (s : List Nat) (a k : Nat) (x : Tensor) (L : List Nat)
    (hwf : Tensor.wf s x) (ha : a < s.length) (hz : ∀ d ∈ s, 0 < d) :
    (L ≠ [] → L.sum = s.getD a 0 →
      splitOpRun L a k x = .ok (splitT a L x)
      ∧ concatOpRun a (splitT a L x) = x)
    ∧ (0 < k → s.getD a 0 % k = 0 →
      splitOpRun [] a k x = .ok (splitT a (List.replicate k (s.getD a 0 / k)) x)
      ∧ concatOpRun a (splitT a (List.replicate k (s.getD a 0 / k)) x) = x)
    ∧ (s.getD a 0 % k ≠ 0 → splitOpRun [] a k x = .error .fatal) := by
  have hshape : x.tshape = s := tshape_wf s x hwf hz
  refine ⟨fun hL hsum => ⟨?_, ?_⟩, fun hk hmod => ⟨?_, ?_⟩, fun hmod => ?_⟩
  · rw [splitOpRun, if_neg (by simpa [List.isEmpty_iff] using hL)]
  · exact concatT_splitT a s L x hwf ha hL hsum
  · rw [splitOpRun, if_pos (show ([] : List Nat).isEmpty = true from rfl), hshape]
    show (if s.getD a 0 % k = 0 then
        Except.ok (splitT a (List.replicate k (s.getD a 0 / k)) x)
      else Except.error Err.fatal) = _
    rw [if_pos hmod]
  · refine concatT_splitT a s _ x hwf ha ?_ ?_
    · intro hrep
      have hlenrep := congrArg List.length hrep
      simp at hlenrep
      omega
    · rw [List.sum_replicate, smul_eq_mul,
        Nat.mul_div_cancel' (Nat.dvd_of_mod_eq_zero hmod)]
  · rw [splitOpRun, if_pos (show ([] : List Nat).isEmpty = true from rfl), hshape]
    show (if s.getD a 0 % k = 0 then
        Except.ok (splitT a (List.replicate k (s.getD a 0 / k)) x)
      else Except.error Err.fatal) = _
    rw [if_neg hmod]

theorem split_concat_roundtrip_witness :
    splitOpRun [1, 2] 1 2
        (.node [.node [.scalar 1, .scalar 2, .scalar 3],
                .node [.scalar 4, .scalar 5, .scalar 6]])
      = .ok (splitT 1 [1, 2]
        (.node [.node [.scalar 1, .scalar 2, .scalar 3],
                .node [.scalar 4, .scalar 5, .scalar 6]]))
    ∧ concatOpRun 1 (splitT 1 [1, 2]
        (.node [.node [.scalar 1, .scalar 2, .scalar 3],
                .node [.scalar 4, .scalar 5, .scalar 6]]))
      = .node [.node [.scalar 1, .scalar 2, .scalar 3],
               .node [.scalar 4, .scalar 5, .scalar 6]]
    ∧ concatOpRun 1 (splitT 1 (List.replicate 3 1)
        (.node [.node [.scalar 1, .scalar 2, .scalar 3],
                .node [.scalar 4, .scalar 5, .scalar 6]]))
      = .node [.node [.scalar 1, .scalar 2, .scalar 3],
               .node [.scalar 4, .scalar 5, .scalar 6]]
    ∧ splitOpRun [] 1 2
        (.node [.node [.scalar 1, .scalar 2, .scalar 3],
                .node [.scalar 4, .scalar 5, .scalar 6]])
      = .error .fatal :=
  ⟨((split_concat_roundtrip [2, 3] 1 2 _ [1, 2] (by decide) (by decide) (by decide)).1
      (by decide) (by decide)).1,
   ((split_concat_roundtrip [2, 3] 1 2 _ [1, 2] (by decide) (by decide) (by decide)).1
      (by decide) (by decide)).2,
   ((split_concat_roundtrip [2, 3] 1 3 _ [] (by decide) (by decide) (by decide)).2.1
      (by decide) (by decide)).2,
   (split_concat_roundtrip [2, 3] 1 2 _ [] (by decide) (by decide) (by decide)).2.2
      (by decide)⟩

/-- The spec's jump scenario instantiated through `jmp_pc_semantics`: in the
program `[nop, nop, JmpTrue(target 5), nop, nop, nop, nop]` with a true 0-d
condition in variable 0, the step at index 2 resumes at index 5, and the
full trace of executed indices is `[0, 1, 2, 5, 6]` — indices 3 and 4 are
never executed. -/
theorem jmp_pc_semantics_witness :
    stepVM [.nop, .nop, .jmpTrue 0 5, .nop, .nop, .nop, .nop]
        ⟨2, [some ⟨[], [1]⟩]⟩
      = .ok (⟨5, [some ⟨[], [1]⟩]⟩, 2)
    ∧ runVM [.nop, .nop, .jmpTrue 0 5, .nop, .nop, .nop, .nop] 10 ⟨0, [some ⟨[], [1]⟩]⟩
      = [0, 1, 2, 5, 6] :=
  ⟨((jmp_pc_semantics [.nop, .nop, .jmpTrue 0 5, .nop, .nop, .nop, .nop]
      ⟨2, [some ⟨[], [1]⟩]⟩ 2 0 5 ⟨[], [1]⟩ rfl (by decide) rfl).1 rfl).2.1 rfl,
   by decide⟩

end XCVM
